import Mathlib

/-!
Verification of the confighelper configuration loader (confighelper.py).

The development shallowly embeds the source module. Python values parsed
from JSON or YAML documents become the inductive type Value; Python dicts
become association lists; the filesystem and the process environment become
association lists from names to file contents or variable values. The three
regular expressions of the source, EVAR, LVAR and CVAR, are embedded as
executable scanners over character lists that reproduce the matching of
re.findall for these concrete patterns: EVAR and LVAR are the non-greedy
patterns over dollar-paren and percent-paren, CVAR is the greedy pattern
over percent-bracket, and a dot never matches a newline. Python
str.replace, str.lstrip and filename.split are embedded likewise.

External collaborators (the json, yaml and docopt libraries) are modelled
only as far as the loader exercises them: jsonLoads is a recursive-descent
reader of the JSON fragment the tests use, yamlLoads reads flat scalar
mappings, yamlScalar reads YAML scalar literals, and docopt output is taken
as the input of the config function, which is where the source consumes it.
-/

namespace Confighelper

/-- Parsed configuration values: the Python values produced by json.loads
and yaml.load, plus the values docopt yields at the command line. -/
inductive Value where
| null : Value
| bool (b : Bool) : Value
| int (n : Int) : Value
| str (s : String) : Value
| list (l : List Value) : Value
| dict (d : List (Value × Value)) : Value

mutual

def vbeq : Value → Value → Bool
  | .null, .null => true
  | .bool a, .bool b => a == b
  | .int a, .int b => a == b
  | .str a, .str b => a == b
  | .list a, .list b => lbeq a b
  | .dict a, .dict b => dbeq a b
  | _, _ => false

def lbeq : List Value → List Value → Bool
  | [], [] => true
  | x :: xs, y :: ys => vbeq x y && lbeq xs ys
  | _, _ => false

def dbeq : List (Value × Value) → List (Value × Value) → Bool
  | [], [] => true
  | (k1, v1) :: xs, (k2, v2) :: ys => vbeq k1 k2 && vbeq v1 v2 && dbeq xs ys
  | _, _ => false

end

mutual

def vbeq_iff : (a b : Value) → (vbeq a b = true ↔ a = b)
  | .null, b => by cases b <;> simp [vbeq]
  | .bool x, b => by cases b <;> simp [vbeq]
  | .int x, b => by cases b <;> simp [vbeq]
  | .str x, b => by cases b <;> simp [vbeq]
  | .list l, .null => by simp [vbeq]
  | .list l, .bool y => by simp [vbeq]
  | .list l, .int y => by simp [vbeq]
  | .list l, .str y => by simp [vbeq]
  | .list l, .list l2 => by have h := lbeq_iff l l2; simp [vbeq, h]
  | .list l, .dict d2 => by simp [vbeq]
  | .dict d, .null => by simp [vbeq]
  | .dict d, .bool y => by simp [vbeq]
  | .dict d, .int y => by simp [vbeq]
  | .dict d, .str y => by simp [vbeq]
  | .dict d, .list l2 => by simp [vbeq]
  | .dict d, .dict d2 => by have h := dbeq_iff d d2; simp [vbeq, h]

def lbeq_iff : (a b : List Value) → (lbeq a b = true ↔ a = b)
  | [], [] => by simp [lbeq]
  | [], _ :: _ => by simp [lbeq]
  | _ :: _, [] => by simp [lbeq]
  | x :: xs, y :: ys => by
      have h1 := vbeq_iff x y
      have h2 := lbeq_iff xs ys
      simp [lbeq, h1, h2]

def dbeq_iff : (a b : List (Value × Value)) → (dbeq a b = true ↔ a = b)
  | [], [] => by simp [dbeq]
  | [], _ :: _ => by simp [dbeq]
  | _ :: _, [] => by simp [dbeq]
  | (k1, v1) :: xs, (k2, v2) :: ys => by
      have h0 := vbeq_iff k1 k2
      have h1 := vbeq_iff v1 v2
      have h2 := dbeq_iff xs ys
      simp [dbeq, h0, h1, h2, Prod.ext_iff]

end

instance : DecidableEq Value := fun a b => decidable_of_iff _ (vbeq_iff a b)

/-- Association-list model of a Python dict with arbitrary (hashable) keys. -/
abbrev PyDict := List (Value × Value)

/-- Newline character; a dot in the source regular expressions never
matches it. -/
def nlc : Char := Char.ofNat 10

/-- Single-quote character, used by the Python repr of strings. -/
def sq : Char := Char.ofNat 39

/-- Double-quote character, the JSON string delimiter. -/
def dq : Char := Char.ofNat 34

/-- Opening curly brace character. -/
def obc : Char := Char.ofNat 123

/-- Closing curly brace character. -/
def cbc : Char := Char.ofNat 125

mutual

/-- Model of Python repr on parsed configuration values, as it appears
inside the str dump of a container (string escaping is not modelled; the
development only applies it to strings without quotes or backslashes). -/
def pyRepr : Value → String
  | .null => "None"
  | .bool true => "True"
  | .bool false => "False"
  | .int n => toString n
  | .str s => ⟨[sq]⟩ ++ s ++ ⟨[sq]⟩
  | .list l => "[" ++ pyReprList l ++ "]"
  | .dict d => ⟨[obc]⟩ ++ pyReprDict d ++ ⟨[cbc]⟩

def pyReprList : List Value → String
  | [] => ""
  | [x] => pyRepr x
  | x :: xs => pyRepr x ++ ", " ++ pyReprList xs

def pyReprDict : List (Value × Value) → String
  | [] => ""
  | [(k, v)] => pyRepr k ++ ": " ++ pyRepr v
  | (k, v) :: xs => pyRepr k ++ ": " ++ pyRepr v ++ ", " ++ pyReprDict xs

end

/-- Model of Python str on parsed configuration values: identical to repr
except on strings, which print verbatim. -/
def pyStr : Value → String
  | .str s => s
  | v => pyRepr v

/-- Model of Python truthiness on parsed configuration values. -/
def pyTruthy : Value → Bool
  | .null => false
  | .bool b => b
  | .int n => n != 0
  | .str s => s != ""
  | .list l => !l.isEmpty
  | .dict d => !d.isEmpty

/-- Embedding of basic_type: membership of the value type in the
BASIC_TYPES list of the source (int, float, bool, str; the float case
has no separate constructor in the model). -/
def basic_type : Value → Bool
  | .int _ => true
  | .bool _ => true
  | .str _ => true
  | _ => false

/-- Numeric view of a value: Python bool is a subclass of int, so True
and False compare equal to 1 and 0 under the equality operator. -/
def pyNum? : Value → Option Int
  | .bool b => some (if b then 1 else 0)
  | .int n => some n
  | _ => none

/-- Model of the Python equality operator, as dict lookup and set
membership apply it to keys: two numeric values (bools included) compare
by value, a numeric never equals a non-numeric, and everything else
compares structurally. Containers are not hashable in Python and so never
appear as keys; their structural comparison here is unreachable from key
positions. -/
def pyEq (a b : Value) : Bool :=
  match pyNum? a with
  | some m =>
    match pyNum? b with
    | some n => m == n
    | none => false
  | none => vbeq a b

/-- Model of the key set union set(d2) | set(d1): the first occurrence of
each key survives and later keys equal to it under Python equality are
dropped, as set insertion does. Python leaves the iteration order of the
set unspecified; the model fixes the first-occurrence order, and the
theorems below only use order-independent consequences except where a
counterexample states the result of this fixed enumeration. -/
def pyDedup : List Value → List Value
  | [] => []
  | k :: rest => k :: (pyDedup rest).filter (fun j => !pyEq j k)

/-- Model of a Python dict assignment d at key k set to v: when a key
equal to k under Python equality is present, its value is updated in
place and the stored key object and its position are kept; otherwise the
new pair is appended, as insertion order demands. -/
def dictInsert : PyDict → Value → Value → PyDict
  | [], k, v => [(k, v)]
  | (k0, v0) :: rest, k, v =>
    if pyEq k0 k then (k0, v) :: rest
    else (k0, v0) :: dictInsert rest k v

/-- Boolean prefix test on character lists (model of the prefix check done
by Python str.replace when scanning for its pattern). -/
def startsWith : List Char → List Char → Bool
  | [], _ => true
  | _ :: _, [] => false
  | p :: ps, c :: cs => p = c && startsWith ps cs

/-- Model of the Python slice v[2:-1] used by the source to strip the
two-character opener and one-character closer from a matched expression. -/
def slice2m1 (v : List Char) : List Char := (v.drop 2).dropLast

/-- Body of a non-greedy match: the characters up to the first occurrence
of the closing character, failing at a newline or the end of input, as the
pattern dot-star-question does. -/
def findClose (cl : Char) : List Char → Option (List Char × List Char)
  | [] => none
  | x :: xs =>
    if x = cl then some ([], xs)
    else if x = nlc then none
    else match findClose cl xs with
      | some p => some (x :: p.1, p.2)
      | none => none

/-- Body of a greedy match: the characters up to the last occurrence of the
closing character on the current line, as the pattern dot-star does. -/
def findCloseLast (cl : Char) : List Char → Option (List Char × List Char)
  | [] => none
  | x :: xs =>
    if x = nlc then none
    else match findCloseLast cl xs with
      | some p => some (x :: p.1, p.2)
      | none => if x = cl then some ([], xs) else none

/-- Match body selector: greedy for the CVAR pattern, non-greedy for EVAR
and LVAR. -/
def findBody (g : Bool) (cl : Char) (cs : List Char) : Option (List Char × List Char) :=
  if g then findCloseLast cl cs else findClose cl cs

theorem findClose_rest_length {cl : Char} :
    ∀ {cs b r : List Char}, findClose cl cs = some (b, r) → r.length < cs.length := by
  intro cs
  induction cs with
  | nil => intro b r h; simp [findClose] at h
  | cons x xs ih =>
      intro b r h
      simp only [findClose] at h
      split at h
      · cases h
        simp
      · split at h
        · cases h
        · split at h
          next p heq =>
            cases h
            have hp := ih heq
            simp only [List.length_cons]
            omega
          next => cases h

theorem findCloseLast_rest_length {cl : Char} :
    ∀ {cs b r : List Char}, findCloseLast cl cs = some (b, r) → r.length < cs.length := by
  intro cs
  induction cs with
  | nil => intro b r h; simp [findCloseLast] at h
  | cons x xs ih =>
      intro b r h
      simp only [findCloseLast] at h
      split at h
      · cases h
      · split at h
        next p heq =>
          cases h
          have hp := ih heq
          simp only [List.length_cons]
          omega
        next =>
          split at h
          · cases h
            simp
          · cases h

theorem findBody_rest_length {g : Bool} {cl : Char} {cs b r : List Char}
    (h : findBody g cl cs = some (b, r)) : r.length < cs.length := by
  unfold findBody at h
  cases g with
  | true => exact findCloseLast_rest_length h
  | false => exact findClose_rest_length h

/-- Fueled scanner loop; scanExprs instantiates the fuel with the length
of the input, which scanGo never outruns because every recursive call
drops at least one character. The fuel only makes the recursion
structural, so that concrete runs reduce inside the kernel. -/
def scanGo (g : Bool) (o1 o2 cl : Char) : Nat → List Char → List (List Char)
  | 0, _ => []
  | _ + 1, [] => []
  | _ + 1, [_] => []
  | fuel + 1, x :: y :: ys =>
    if x = o1 ∧ y = o2 then
      match findBody g cl ys with
      | some br => (o1 :: o2 :: (br.1 ++ [cl])) :: scanGo g o1 o2 cl fuel br.2
      | none => scanGo g o1 o2 cl fuel (y :: ys)
    else scanGo g o1 o2 cl fuel (y :: ys)

/-- Scanner reproducing re.findall for the three source patterns: at each
position, a match needs the two opener characters followed by a body and
the closer found by findBody; on failure the scan advances one character;
on success it resumes after the match, so matches never overlap. -/
def scanExprs (g : Bool) (o1 o2 cl : Char) (cs : List Char) : List (List Char) :=
  scanGo g o1 o2 cl cs.length cs

/-- Fueled replacement loop; replaceAll instantiates the fuel with the
length of the input, which replaceGo never outruns. -/
def replaceGo (pat rep : List Char) : Nat → List Char → List Char
  | 0, s => s
  | _ + 1, [] => []
  | fuel + 1, x :: xs =>
    if startsWith pat (x :: xs) ∧ pat ≠ [] then
      rep ++ replaceGo pat rep fuel ((x :: xs).drop pat.length)
    else
      x :: replaceGo pat rep fuel xs

/-- Model of Python str.replace: replace every non-overlapping occurrence
of pat, scanning left to right, without rescanning the replacement text. -/
def replaceAll (pat rep : List Char) (s : List Char) : List Char :=
  replaceGo pat rep s.length s

/-- Matches of the EVAR pattern (dollar, paren, non-greedy body, paren)
over a string, in order of occurrence, as re.findall returns them. -/
def findEvars (s : String) : List (List Char) := scanExprs false '$' '(' ')' s.data

/-- Matches of the LVAR pattern (percent, paren, non-greedy body, paren). -/
def findLvars (s : String) : List (List Char) := scanExprs false '%' '(' ')' s.data

/-- Matches of the CVAR pattern (percent, bracket, greedy body, bracket). -/
def findCvars (s : String) : List (List Char) := scanExprs true '%' '[' ']' s.data

/-- String form of the v[2:-1] slice of a matched expression. -/
def sliceS (v : List Char) : String := ⟨slice2m1 v⟩

/-- Supported compact-format extensions, the JSON list of the source. -/
def JSON : List String := ["json"]

/-- Supported indented-format extensions, the YAML list of the source. -/
def YAML : List String := ["yaml", "yml"]

/-- Suffix of a character list after its last dot; on a dot-free list the
whole list. This is the value of the Python split-on-dot last element. -/
def lastDotPart : List Char → List Char
  | [] => []
  | c :: rest =>
    if c = '.' then lastDotPart rest
    else if '.' ∈ rest then lastDotPart rest
    else c :: rest

/-- Embedding of get_format: the text after the final dot of the filename,
taken verbatim (the source applies no case folding). -/
def get_format (filename : String) : String := ⟨lastDotPart filename.data⟩

/-- Embedding of expand_evar: find every EVAR match in the original string,
then for each match whose name is bound in the environment replace all of
its occurrences in the current string by the bound value; unbound names
are skipped silently. -/
def expand_evar (s : String) (env : List (String × String)) : String :=
  ⟨(findEvars s).foldl (fun acc v =>
      match List.lookup (sliceS v) env with
      | some w => replaceAll v w.data acc
      | none => acc) s.data⟩

/-- Embedding of expand_cvar: find every CVAR match in the original string;
for each match whose name exists as a path in the filesystem (the source
tests os.path.exists on the literal name, resolved by the OS against the
process working directory), recursively expand the file content and
replace all occurrences of the match; missing paths are skipped silently.
The fuel argument bounds the include recursion, which the source leaves
unbounded; every theorem below supplies enough fuel for its input. -/
def expand_cvar (fuel : Nat) (s : String) (fs : List (String × String)) : String :=
  match fuel with
  | 0 => s
  | fuel + 1 =>
    ⟨(findCvars s).foldl (fun acc v =>
        match List.lookup (sliceS v) fs with
        | some content => replaceAll v (expand_cvar fuel content fs).data acc
        | none => acc) s.data⟩

/-- Lookup of a string name among the keys of a parsed mapping, as the
Python membership test name-in-scope followed by scope-at-name does;
distinguishes an absent key from a key bound to None. Key comparison is
Python equality, under which a string matches exactly the same string. -/
def dictGet? (scope : PyDict) (name : String) : Option Value :=
  (scope.find? (fun kv => pyEq kv.1 (Value.str name))).map Prod.snd

/-- Embedding of expand_lvars: find every LVAR match in the original
string, then for each match whose name is a key of the scope replace all
of its occurrences in the current string by the Python str of the bound
value (whatever its type); unbound names are skipped silently. -/
def expand_lvars (s : String) (scope : PyDict) : String :=
  ⟨(findLvars s).foldl (fun acc v =>
      match dictGet? scope (sliceS v) with
      | some val => replaceAll v (pyStr val).data acc
      | none => acc) s.data⟩

/-- Iterated local-variable expansion; the load loop runs it ten times. -/
def lvarIter (scope : PyDict) (n : Nat) (s : String) : String :=
  (fun t => expand_lvars t scope)^[n] s

/-- Embedding of the Python dict.get default: the value at a key, with
None both for an absent key and for a key bound to None. Lookup compares
keys with Python equality, so d.get(True) reads an entry keyed by 1. -/
def pyGet (d : PyDict) (k : Value) : Value :=
  match d.find? (fun kv => pyEq kv.1 k) with
  | some kv => kv.2
  | none => .null

/-- Embedding of choose: the primary value unless it is None, else the
secondary value. -/
def choose (key : Value) (dict1 dict2 : PyDict) : Value :=
  match pyGet dict1 key with
  | .null => pyGet dict2 key
  | v => v

/-- Key list of a mapping. -/
def keysOf (d : PyDict) : List Value := d.map Prod.fst

/-- Embedding of merge: iterate the union of the two key sets
(deduplicated under Python equality, in the fixed first-occurrence
order), and build the result dict by successive assignment of the
str-coerced key to the chosen value. When two distinct union keys
coerce to equal strings, the later assignment overwrites the earlier
value at the one shared entry, exactly as the Python dict constructor
does; the set iteration order, unspecified in Python, decides which
value survives such a collision. -/
def merge (dict_1 dict_2 : PyDict) : PyDict :=
  (pyDedup (keysOf dict_2 ++ keysOf dict_1)).foldl
    (fun acc k => dictInsert acc (Value.str (pyStr k)) (choose k dict_1 dict_2)) []

/-- Whitespace skipper for the JSON reader model. -/
def skipWs (cs : List Char) : List Char :=
  cs.dropWhile (fun c => c.toNat = 32 ∨ c.toNat = 10 ∨ c.toNat = 9 ∨ c.toNat = 13)

/-- Characters of a JSON string after its opening quote, up to the closing
quote (escape sequences are not modelled; no input of this development
contains a backslash). -/
def strBody : List Char → Option (List Char × List Char)
  | [] => none
  | c :: cs =>
    if c = dq then some ([], cs)
    else match strBody cs with
      | some p => some (c :: p.1, p.2)
      | none => none

/-- Natural number denoted by a digit run. -/
def natOfDigits (cs : List Char) : Nat :=
  cs.foldl (fun acc c => 10 * acc + (c.toNat - 48)) 0

mutual

/-- Model of json.loads on one value, for the JSON fragment the loader
exercises: objects with string keys, arrays, strings, integers, booleans
and null. Fuel bounds the recursion; jsonLoads supplies enough. -/
def jsonVal : Nat → List Char → Option (Value × List Char)
  | 0, _ => none
  | fuel + 1, cs0 =>
    match skipWs cs0 with
    | [] => none
    | c :: rest =>
      if c = dq then (strBody rest).map (fun p => (Value.str ⟨p.1⟩, p.2))
      else if c = obc then jsonMembers fuel rest []
      else if c = '[' then jsonItems fuel rest []
      else if startsWith ("true".data) (c :: rest) then some (.bool true, (c :: rest).drop 4)
      else if startsWith ("false".data) (c :: rest) then some (.bool false, (c :: rest).drop 5)
      else if startsWith ("null".data) (c :: rest) then some (.null, (c :: rest).drop 4)
      else if c = '-' then
        let ds := rest.takeWhile (fun d => d.isDigit)
        if ds = [] then none
        else some (.int (-(natOfDigits ds : Int)), rest.drop ds.length)
      else if c.isDigit then
        let ds := (c :: rest).takeWhile (fun d => d.isDigit)
        some (.int (natOfDigits ds : Int), (c :: rest).drop ds.length)
      else none

/-- Members of a JSON object after the opening brace. -/
def jsonMembers : Nat → List Char → PyDict → Option (Value × List Char)
  | 0, _, _ => none
  | fuel + 1, cs0, acc =>
    match skipWs cs0 with
    | [] => none
    | c :: rest =>
      if c = cbc then some (.dict acc.reverse, rest)
      else if c = dq then
        match strBody rest with
        | some (kcs, r1) =>
          match skipWs r1 with
          | ':' :: r2 =>
            match jsonVal fuel r2 with
            | some (v, r3) =>
              match skipWs r3 with
              | ',' :: r4 => jsonMembers fuel r4 ((Value.str ⟨kcs⟩, v) :: acc)
              | e :: r4 =>
                if e = cbc then some (.dict ((Value.str ⟨kcs⟩, v) :: acc).reverse, r4)
                else none
              | [] => none
            | none => none
          | _ => none
        | none => none
      else none

/-- Items of a JSON array after the opening bracket. -/
def jsonItems : Nat → List Char → List Value → Option (Value × List Char)
  | 0, _, _ => none
  | fuel + 1, cs0, acc =>
    match skipWs cs0 with
    | [] => none
    | c :: rest =>
      if c = ']' then some (.list acc.reverse, rest)
      else
        match jsonVal fuel (c :: rest) with
        | some (v, r1) =>
          match skipWs r1 with
          | ',' :: r2 => jsonItems fuel r2 (v :: acc)
          | ']' :: r2 => some (.list (v :: acc).reverse, r2)
          | _ => none
        | none => none

end

/-- Model of json.loads on a whole document. -/
def jsonLoads (s : String) : Option Value :=
  match jsonVal (s.data.length + 2) s.data with
  | some (v, rest) => if skipWs rest = [] then some v else none
  | none => none

/-- Split a character list at every occurrence of a separator. -/
def splitOnChar (sep : Char) (cs : List Char) : List (List Char) :=
  match cs with
  | [] => [[]]
  | c :: rest =>
    let ps := splitOnChar sep rest
    if c = sep then [] :: ps
    else match ps with
      | p :: pr => (c :: p) :: pr
      | [] => [[c]]

/-- Strip outer spaces from a character list. -/
def trimSpaces (cs : List Char) : List Char :=
  ((cs.dropWhile (fun c => c.toNat = 32)).reverse.dropWhile (fun c => c.toNat = 32)).reverse

/-- Model of yaml.load on a scalar literal: booleans, integers and null in
their YAML spellings, any other text as a string. Flow lists and nested
mappings are outside the fragment the development exercises. -/
def yamlScalar (s : String) : Value :=
  if s = "true" ∨ s = "True" then .bool true
  else if s = "false" ∨ s = "False" then .bool false
  else if s = "null" ∨ s = "~" ∨ s = "" then .null
  else if s.data ≠ [] ∧ s.data.all (fun c => c.isDigit) then .int (natOfDigits s.data : Int)
  else .str s

/-- Model of yaml.load on a flat block mapping: one key, colon, scalar per
line. This is the only YAML document shape the development feeds it. -/
def yamlLoads (s : String) : Option Value :=
  let lines := (splitOnChar nlc s.data).filter (fun l => trimSpaces l ≠ [])
  let entry := fun (l : List Char) =>
    match splitOnChar ':' l with
    | k :: rest =>
      if rest = [] then none
      else some (Value.str ⟨trimSpaces k⟩,
                 yamlScalar ⟨trimSpaces (List.intercalate [':'] rest)⟩)
    | [] => none
  match lines.mapM entry with
  | some entries => some (.dict entries)
  | none => none

/-- Failure conditions of the loader, one per raise or library error the
source can surface. -/
inductive LoadErr where
| configFormat : LoadErr
| fileNotFound : LoadErr
| parseError : LoadErr
| typeError : LoadErr
deriving DecidableEq

/-- Dispatch of the parse step on the selected format, as the two
format-membership conditionals of load do. -/
def parseAs (format : String) (s : String) : Option Value :=
  if format ∈ JSON then jsonLoads s else yamlLoads s

/-- Scope used by the local-variable loop: the parsed document when it is
a mapping; a non-mapping document never satisfies the string-key
membership test of expand_lvars, so it behaves as an empty scope. -/
def toScope : Value → PyDict
  | .dict d => d
  | _ => []

/-- Embedding of load: select the format from the argument or the file
extension, fail on an unsupported format, read the file, expand includes,
then environment variables, parse, run ten passes of local-variable
expansion with the parsed document as scope, and re-parse. The source
also splits the filename into directory and base name, but never uses the
result, so the model omits it. -/
def load (fuel : Nat) (fs env : List (String × String)) (fname : String)
    (fmt : Option String) : Except LoadErr Value :=
  let format := fmt.getD (get_format fname)
  if format ∈ JSON ++ YAML then
    match List.lookup fname fs with
    | none => .error .fileNotFound
    | some content =>
      let s1 := expand_cvar fuel content fs
      let s2 := expand_evar s1 env
      match parseAs format s2 with
      | none => .error .parseError
      | some parent =>
        let s3 := lvarIter (toScope parent) 10 s2
        match parseAs format s3 with
        | none => .error .parseError
        | some result => .ok result
  else .error .configFormat

/-- Embedding of the key strip in config: Python lstrip with the
two-dash argument removes every leading dash character. -/
def lstripDashes (s : String) : String := ⟨s.data.dropWhile (fun c => c = '-')⟩

/-- Key strip applied to a whole docopt mapping. -/
def stripKeys (cargs : List (String × Value)) : List (String × Value) :=
  cargs.map (fun kv => (lstripDashes kv.1, kv.2))

/-- Embedding of parse_cmd_args at its only call site (format yaml):
every truthy string value is re-read as a YAML literal, everything else
is kept; keys pass through unchanged. -/
def parse_cmd_args (args : List (String × Value)) : PyDict :=
  args.map (fun kv =>
    (Value.str kv.1,
     match kv.2 with
     | .str s => if s ≠ "" then yamlScalar s else .str s
     | v => v))

/-- Embedding of config from the docopt result onward: strip leading
dashes from the keys, re-read string values as YAML, and if a truthy
config key is present load the named file and merge the command-line
mapping over it; otherwise return the command-line mapping. -/
def config (cargs : List (String × Value)) (fs env : List (String × String))
    (fuel : Nat) : Except LoadErr PyDict :=
  let c2 := parse_cmd_args (stripKeys cargs)
  match dictGet? c2 "config" with
  | some v =>
    if pyTruthy v then
      match v with
      | .str fname =>
        match load fuel fs env fname none with
        | .ok (.dict dd) => .ok (merge c2 dd)
        | .ok _ => .error .typeError
        | .error e => .error e
      | _ => .error .typeError
    else .ok c2
  | none => .ok c2

mutual

/-- Modelled from the spec: the missing step 5 of section 4.6, which the
source does not contain, needs a serializer; this one models json.dumps
on the values the development exercises. -/
def jsonDumpsSpec : Value → String
  | .null => "null"
  | .bool true => "true"
  | .bool false => "false"
  | .int n => toString n
  | .str s => ⟨[dq]⟩ ++ s ++ ⟨[dq]⟩
  | .list l => "[" ++ jsonDumpsSpecList l ++ "]"
  | .dict d => ⟨[obc]⟩ ++ jsonDumpsSpecDict d ++ ⟨[cbc]⟩

def jsonDumpsSpecList : List Value → String
  | [] => ""
  | [x] => jsonDumpsSpec x
  | x :: xs => jsonDumpsSpec x ++ ", " ++ jsonDumpsSpecList xs

def jsonDumpsSpecDict : List (Value × Value) → String
  | [] => ""
  | [(k, v)] => jsonDumpsSpec k ++ ": " ++ jsonDumpsSpec v
  | (k, v) :: xs => jsonDumpsSpec k ++ ": " ++ jsonDumpsSpec v ++ ", " ++ jsonDumpsSpecDict xs

end

/-- Modelled from the spec: post-merge local-variable expansion of section
4.6 step 5, absent from the source; it re-expands the serialized merged
mapping with the merged mapping as scope and re-parses the result. -/
def specPostExpand (m : PyDict) : Option Value :=
  jsonLoads (lvarIter m 10 (jsonDumpsSpec (Value.dict m)))

/-- Modelled from the spec: the phase order of sections 2 and 4.6, with
environment expansion before include expansion. The source load applies
the two phases in the opposite order; compare codePhases below. -/
def specPhases (fuel : Nat) (fs env : List (String × String)) (text : String) : String :=
  expand_cvar fuel (expand_evar text env) fs

/-- Phase order of the source load: includes first, then environment
variables. -/
def codePhases (fuel : Nat) (fs env : List (String × String)) (text : String) : String :=
  expand_evar (expand_cvar fuel text fs) env

/-- Docopt result of a run with a config option and a host option, both
supplied at the command line. -/
def cargsC1 : List (String × Value) :=
  [("--config", Value.str "f.json"), ("--host", Value.str "h1")]

/-- Filesystem with one config file whose value refers to the local
variable host, which only the command line binds. -/
def fsC1 : List (String × String) :=
  [("f.json", "\x7b\"greeting\": \"%(host)\"\x7d")]

/-- Mapping the embedded config returns on cargsC1 and fsC1. -/
def mergedC1 : PyDict :=
  [(Value.str "greeting", Value.str "%(host)"),
   (Value.str "config", Value.str "f.json"),
   (Value.str "host", Value.str "h1")]

/-- Filesystem for the missing-include run: the parent references a file
that exists on no path. -/
def fsC2 : List (String × String) :=
  [("a.json", "\x7b\"x\": \"%[missing.yaml]\"\x7d")]

/-- Value bound to the server key in the type-mismatch run: a mapping,
not a scalar. -/
def serverC3 : Value :=
  Value.dict [(Value.str "host", Value.str "x"), (Value.str "port", Value.int 1)]

/-- Filesystem for the type-mismatch run: a local-variable reference to a
key bound to a nested mapping. -/
def fsC3 : List (String × String) :=
  [("t.json",
    "\x7b\"server\": \x7b\"host\": \"x\", \"port\": 1\x7d, \"v\": \"%(server)\"\x7d")]

/-- Filesystem for the phase-order run: the parent includes a file whose
content is an environment-variable expression. -/
def fsC5 : List (String × String) :=
  [("a.json", "\x7b\"x\": \"%[inc.txt]\"\x7d"), ("inc.txt", "$(HOME)")]

/-- Environment for the phase-order run. -/
def envC5 : List (String × String) := [("HOME", "/root")]

/-- Filesystem for the search-path run: the included file exists in the
directory of the including file, but not under the bare name the include
expression carries. -/
def fsC6 : List (String × String) :=
  [("dir/a.json", "\x7b\"x\": \"%[b.txt]\"\x7d"), ("dir/b.txt", "hello")]

/-- Scope with an acyclic local-variable chain of depth twelve, deeper
than the ten-pass cap of the load loop. -/
def chainScope : PyDict :=
  [(Value.str "k0", Value.str "a%(k1)"), (Value.str "k1", Value.str "a%(k2)"),
   (Value.str "k2", Value.str "a%(k3)"), (Value.str "k3", Value.str "a%(k4)"),
   (Value.str "k4", Value.str "a%(k5)"), (Value.str "k5", Value.str "a%(k6)"),
   (Value.str "k6", Value.str "a%(k7)"), (Value.str "k7", Value.str "a%(k8)"),
   (Value.str "k8", Value.str "a%(k9)"), (Value.str "k9", Value.str "a%(k10)"),
   (Value.str "k10", Value.str "a%(k11)"), (Value.str "k11", Value.str "end")]

/-- Environment for the once-only run: the value of A is itself an
expression that also occurs later in the original text. -/
def envC8 : List (String × String) := [("A", "$(B)"), ("B", "y")]

/-- Filesystem for the format-inference run: a file with an upper-case
YAML extension, plus its lower-case twin. -/
def fsC9 : List (String × String) := [("conf.YAML", "a: 1"), ("conf.yaml", "a: 1")]

/-- Command-line mapping after stripping and re-reading, for the run on
cargsC1. -/
def cargs2C1 : PyDict :=
  [(Value.str "config", Value.str "f.json"), (Value.str "host", Value.str "h1")]

/-- Parsed document of the config file of fsC1. -/
def cfileC1 : PyDict := [(Value.str "greeting", Value.str "%(host)")]

/-- Mapping whose two distinct keys, the integer 1 and the string 1,
coerce to the same string under str; its merge collapses them to a
single entry. -/
def collideC10 : PyDict := [(Value.int 1, Value.null), (Value.str "1", Value.int 2)]

/-- Primary mapping of the merge witness run. -/
def wMergeA : PyDict := [(Value.str "a", Value.int 1)]

/-- Secondary mapping of the merge witness run, with a key bound to null. -/
def wMergeB : PyDict := [(Value.str "a", Value.int 2), (Value.str "b", Value.null)]

/-! General lemmas about the scanner, the replacement loop and the
expansion functions. -/

theorem scanGo_congr (g : Bool) (o1 o2 cl : Char) :
    ∀ (f1 f2 : Nat) (cs : List Char), cs.length ≤ f1 → cs.length ≤ f2 →
      scanGo g o1 o2 cl f1 cs = scanGo g o1 o2 cl f2 cs := by
  intro f1
  induction f1 with
  | zero =>
      intro f2 cs h1 _
      have : cs = [] := List.length_eq_zero.mp (Nat.le_zero.mp h1)
      subst this
      cases f2 <;> rfl
  | succ a ih =>
      intro f2 cs h1 h2
      cases cs with
      | nil => cases f2 <;> rfl
      | cons x xs =>
          cases f2 with
          | zero => simp at h2
          | succ b =>
              cases xs with
              | nil => rfl
              | cons y ys =>
                  simp only [List.length_cons] at h1 h2
                  simp only [scanGo]
                  split
                  · cases hfb : findBody g cl ys with
                    | some br =>
                        have hlen := findBody_rest_length hfb
                        dsimp only
                        rw [ih b br.2 (by omega) (by omega)]
                    | none =>
                        dsimp only
                        rw [ih b (y :: ys) (by simp; omega) (by simp; omega)]
                  · rw [ih b (y :: ys) (by simp; omega) (by simp; omega)]

theorem scanExprs_nil (g : Bool) (o1 o2 cl : Char) : scanExprs g o1 o2 cl [] = [] := rfl

theorem scanExprs_one (g : Bool) (o1 o2 cl x : Char) : scanExprs g o1 o2 cl [x] = [] := rfl

theorem scanExprs_skip1 (g : Bool) (o1 o2 cl x y : Char) (ys : List Char) (hx : x ≠ o1) :
    scanExprs g o1 o2 cl (x :: y :: ys) = scanExprs g o1 o2 cl (y :: ys) := by
  show scanGo g o1 o2 cl (ys.length + 1 + 1) (x :: y :: ys) = _
  simp only [scanGo]
  rw [if_neg (by intro hc; exact hx hc.1)]
  rfl

theorem scanExprs_hit (g : Bool) (o1 o2 cl : Char) (name post : List Char)
    (hf : findBody g cl (name ++ cl :: post) = some (name, post)) :
    scanExprs g o1 o2 cl (o1 :: o2 :: (name ++ cl :: post)) =
      (o1 :: o2 :: (name ++ [cl])) :: scanExprs g o1 o2 cl post := by
  show scanGo g o1 o2 cl ((name ++ cl :: post).length + 1 + 1) (o1 :: o2 :: (name ++ cl :: post)) = _
  simp only [scanGo, and_self, ite_true]
  rw [hf]
  dsimp only
  have hlen : post.length ≤ (name ++ cl :: post).length + 1 := by
    simp [List.length_append]
    omega
  rw [scanGo_congr g o1 o2 cl ((name ++ cl :: post).length + 1) post.length post hlen (le_refl _)]
  rfl

theorem scanExprs_skip (g : Bool) (o1 o2 cl : Char) :
    ∀ (pre rest : List Char), (∀ c ∈ pre, c ≠ o1) →
      scanExprs g o1 o2 cl (pre ++ rest) = scanExprs g o1 o2 cl rest := by
  intro pre
  induction pre with
  | nil => intro rest _; rfl
  | cons x pr ih =>
      intro rest hc
      have hx : x ≠ o1 := hc x (by simp)
      have hr : ∀ c ∈ pr, c ≠ o1 := fun c hm => hc c (by simp [hm])
      cases hpr : pr ++ rest with
      | nil =>
          have : rest = [] := (List.append_eq_nil.mp hpr).2
          subst this
          rw [List.append_nil]
          cases pr with
          | nil => rw [scanExprs_one g o1 o2 cl x, scanExprs_nil]
          | cons a b => simp at hpr
      | cons y ys =>
          have h1 : x :: pr ++ rest = x :: y :: ys := by simp [hpr]
          rw [h1, scanExprs_skip1 g o1 o2 cl x y ys hx, ← hpr, ih rest hr]

theorem scanExprs_none (g : Bool) (o1 o2 cl : Char) (s : List Char)
    (h : ∀ c ∈ s, c ≠ o1) : scanExprs g o1 o2 cl s = [] := by
  have h2 := scanExprs_skip g o1 o2 cl s [] h
  rw [List.append_nil] at h2
  rw [h2, scanExprs_nil]

theorem findClose_none {cl : Char} :
    ∀ {l : List Char}, cl ∉ l → findClose cl l = none := by
  intro l
  induction l with
  | nil => intro _; rfl
  | cons x xs ih =>
      intro h
      have hx : x ≠ cl := by intro hh; exact h (by simp [hh])
      have hxs : cl ∉ xs := fun hm => h (by simp [hm])
      simp only [findClose, if_neg hx, ih hxs]
      split <;> rfl

theorem findCloseLast_none {cl : Char} :
    ∀ {l : List Char}, cl ∉ l → findCloseLast cl l = none := by
  intro l
  induction l with
  | nil => intro _; rfl
  | cons x xs ih =>
      intro h
      have hx : x ≠ cl := by intro hh; exact h (by simp [hh])
      have hxs : cl ∉ xs := fun hm => h (by simp [hm])
      simp only [findCloseLast, ih hxs, if_neg hx]
      split <;> rfl

theorem findClose_exact {cl : Char} (hnl : cl ≠ nlc) :
    ∀ {name post : List Char}, cl ∉ name → nlc ∉ name →
      findClose cl (name ++ cl :: post) = some (name, post) := by
  intro name
  induction name with
  | nil => intro post _ _; simp [findClose]
  | cons x xs ih =>
      intro post h1 h2
      have hx : x ≠ cl := by intro hh; exact h1 (by simp [hh])
      have hxn : x ≠ nlc := by intro hh; exact h2 (by simp [hh])
      have h1x : cl ∉ xs := fun hm => h1 (by simp [hm])
      have h2x : nlc ∉ xs := fun hm => h2 (by simp [hm])
      simp only [List.cons_append, findClose, if_neg hx, if_neg hxn, List.append_eq,
        ih h1x h2x]

theorem findCloseLast_exact {cl : Char} (hnl : cl ≠ nlc) :
    ∀ {name post : List Char}, cl ∉ name → nlc ∉ name → cl ∉ post →
      findCloseLast cl (name ++ cl :: post) = some (name, post) := by
  intro name
  induction name with
  | nil =>
      intro post _ _ hp
      simp only [List.nil_append, findCloseLast, if_neg hnl, findCloseLast_none hp]
      simp
  | cons x xs ih =>
      intro post h1 h2 hp
      have hxn : x ≠ nlc := by intro hh; exact h2 (by simp [hh])
      have h1x : cl ∉ xs := fun hm => h1 (by simp [hm])
      have h2x : nlc ∉ xs := fun hm => h2 (by simp [hm])
      simp only [List.cons_append, findCloseLast, if_neg hxn, List.append_eq,
        ih h1x h2x hp]

theorem startsWith_append_self : ∀ (p t : List Char), startsWith p (p ++ t) = true := by
  intro p
  induction p with
  | nil => intro t; rfl
  | cons a ps ih => intro t; simp [startsWith, ih t]

theorem replaceGo_congr (pat rep : List Char) :
    ∀ (f1 f2 : Nat) (s : List Char), s.length ≤ f1 → s.length ≤ f2 →
      replaceGo pat rep f1 s = replaceGo pat rep f2 s := by
  intro f1
  induction f1 with
  | zero =>
      intro f2 s h1 _
      have : s = [] := List.length_eq_zero.mp (Nat.le_zero.mp h1)
      subst this
      cases f2 <;> rfl
  | succ a ih =>
      intro f2 s h1 h2
      cases s with
      | nil => cases f2 <;> rfl
      | cons x xs =>
          cases f2 with
          | zero => simp at h2
          | succ b =>
              simp only [List.length_cons] at h1 h2
              simp only [replaceGo]
              split
              next hc =>
                have hp : 0 < pat.length := by
                  cases hpat : pat with
                  | nil => exact absurd hpat hc.2
                  | cons u us => simp
                rw [ih b ((x :: xs).drop pat.length)
                      (by simp only [List.length_drop, List.length_cons]; omega)
                      (by simp only [List.length_drop, List.length_cons]; omega)]
              next =>
                rw [ih b xs (by omega) (by omega)]

theorem replaceAll_nil (pat rep : List Char) : replaceAll pat rep [] = [] := rfl

theorem replaceAll_skip (a : Char) (pt rep : List Char) :
    ∀ (pre rest : List Char), (∀ c ∈ pre, c ≠ a) →
      replaceAll (a :: pt) rep (pre ++ rest) = pre ++ replaceAll (a :: pt) rep rest := by
  intro pre
  induction pre with
  | nil => intro rest _; rfl
  | cons x pr ih =>
      intro rest hc
      have hx : x ≠ a := hc x (by simp)
      have hr : ∀ c ∈ pr, c ≠ a := fun c hm => hc c (by simp [hm])
      have hsw : startsWith (a :: pt) (x :: (pr ++ rest)) = false := by
        simp [startsWith]
        intro hh
        exact absurd hh.symm hx
      show replaceGo (a :: pt) rep ((pr ++ rest).length + 1) (x :: (pr ++ rest)) = _
      simp only [replaceGo]
      rw [if_neg (by rw [hsw]; simp)]
      rw [show replaceGo (a :: pt) rep (pr ++ rest).length (pr ++ rest) =
            replaceAll (a :: pt) rep (pr ++ rest) from rfl]
      rw [ih rest hr]
      rfl

theorem replaceAll_unchanged (a : Char) (pt rep : List Char) (s : List Char)
    (h : ∀ c ∈ s, c ≠ a) : replaceAll (a :: pt) rep s = s := by
  have h2 := replaceAll_skip a pt rep s [] h
  rw [List.append_nil] at h2
  rw [h2, replaceAll_nil, List.append_nil]

theorem replaceAll_head (pat rep post : List Char) (hne : pat ≠ []) :
    replaceAll pat rep (pat ++ post) = rep ++ replaceAll pat rep post := by
  cases hp : pat with
  | nil => exact absurd hp hne
  | cons a pt =>
      subst hp
      have hsw := startsWith_append_self (a :: pt) post
      show replaceGo (a :: pt) rep ((pt ++ post).length + 1) (a :: (pt ++ post)) = _
      simp only [replaceGo]
      rw [if_pos (And.intro (by rw [show a :: (pt ++ post) = (a :: pt) ++ post from rfl, hsw]) hne)]
      have hd : (a :: (pt ++ post)).drop (a :: pt).length = post := by
        rw [show a :: (pt ++ post) = (a :: pt) ++ post from rfl]
        exact List.drop_left (a :: pt) post
      rw [hd]
      rw [replaceGo_congr (a :: pt) rep ((pt ++ post).length) post.length post
            (by simp) (le_refl _)]
      rfl

theorem replaceAll_single (o1 o2 cl : Char) (pre name post rep : List Char)
    (hpre : ∀ c ∈ pre, c ≠ o1) (hpost : ∀ c ∈ post, c ≠ o1) :
    replaceAll (o1 :: o2 :: (name ++ [cl])) rep (pre ++ o1 :: o2 :: (name ++ cl :: post)) =
      pre ++ rep ++ post := by
  have h1 : pre ++ o1 :: o2 :: (name ++ cl :: post) =
      pre ++ ((o1 :: o2 :: (name ++ [cl])) ++ post) := by simp
  rw [h1, replaceAll_skip o1 _ rep pre _ hpre,
      replaceAll_head _ rep post (by simp),
      replaceAll_unchanged o1 _ rep post hpost, List.append_assoc]

theorem foldl_fix {α β : Type} (f : β → α → β) (l : List α) (s : β)
    (h : ∀ acc, ∀ v ∈ l, f acc v = acc) : l.foldl f s = s := by
  induction l generalizing s with
  | nil => rfl
  | cons x xs ih =>
      rw [List.foldl_cons, h s x (by simp)]
      exact ih s (fun acc v hv => h acc v (by simp [hv]))

theorem slice2m1_match (o1 o2 cl : Char) (name : List Char) :
    slice2m1 (o1 :: o2 :: (name ++ [cl])) = name := by
  simp [slice2m1]

theorem findBody_ng (cl : Char) (l : List Char) : findBody false cl l = findClose cl l := by
  simp [findBody]

theorem findBody_g (cl : Char) (l : List Char) : findBody true cl l = findCloseLast cl l := by
  simp [findBody]

theorem scan_single (g : Bool) (o1 o2 cl : Char) (pre name post : List Char)
    (hpre : ∀ c ∈ pre, c ≠ o1) (hpost : ∀ c ∈ post, c ≠ o1)
    (hf : findBody g cl (name ++ cl :: post) = some (name, post)) :
    scanExprs g o1 o2 cl (pre ++ o1 :: o2 :: (name ++ cl :: post)) =
      [o1 :: o2 :: (name ++ [cl])] := by
  rw [scanExprs_skip g o1 o2 cl pre _ hpre, scanExprs_hit g o1 o2 cl name post hf,
      scanExprs_none g o1 o2 cl post hpost]

theorem expand_evar_noop (s : String) (env : List (String × String))
    (h : ∀ v ∈ findEvars s, List.lookup (sliceS v) env = none) :
    expand_evar s env = s := by
  unfold expand_evar
  rw [foldl_fix _ _ _ (fun acc v hv => by rw [h v hv])]

theorem expand_evar_single (env : List (String × String)) (pre name post : List Char)
    (w : String)
    (hpre : ∀ c ∈ pre, c ≠ '$') (hpost : ∀ c ∈ post, c ≠ '$')
    (hn1 : ')' ∉ name) (hn2 : nlc ∉ name)
    (hw : List.lookup (⟨name⟩ : String) env = some w) :
    expand_evar ⟨pre ++ '$' :: '(' :: (name ++ ')' :: post)⟩ env =
      ⟨pre ++ w.data ++ post⟩ := by
  have hf : findBody false ')' (name ++ ')' :: post) = some (name, post) := by
    rw [findBody_ng]
    exact findClose_exact (by decide) hn1 hn2
  unfold expand_evar
  have hscan : findEvars ⟨pre ++ '$' :: '(' :: (name ++ ')' :: post)⟩ =
      ['$' :: '(' :: (name ++ [')'])] :=
    scan_single false '$' '(' ')' pre name post hpre hpost hf
  rw [hscan]
  simp only [List.foldl_cons, List.foldl_nil]
  rw [show sliceS ('$' :: '(' :: (name ++ [')'])) = (⟨name⟩ : String) by
        unfold sliceS; rw [slice2m1_match]]
  rw [hw]
  show String.mk (replaceAll ('$' :: '(' :: (name ++ [')'])) w.data
        (pre ++ '$' :: '(' :: (name ++ ')' :: post))) = _
  rw [replaceAll_single '$' '(' ')' pre name post w.data hpre hpost]

theorem expand_lvars_single (scope : PyDict) (pre name post : List Char) (val : Value)
    (hpre : ∀ c ∈ pre, c ≠ '%') (hpost : ∀ c ∈ post, c ≠ '%')
    (hn1 : ')' ∉ name) (hn2 : nlc ∉ name)
    (hv : dictGet? scope ⟨name⟩ = some val) :
    expand_lvars ⟨pre ++ '%' :: '(' :: (name ++ ')' :: post)⟩ scope =
      ⟨pre ++ (pyStr val).data ++ post⟩ := by
  have hf : findBody false ')' (name ++ ')' :: post) = some (name, post) := by
    rw [findBody_ng]
    exact findClose_exact (by decide) hn1 hn2
  unfold expand_lvars
  have hscan : findLvars ⟨pre ++ '%' :: '(' :: (name ++ ')' :: post)⟩ =
      ['%' :: '(' :: (name ++ [')'])] :=
    scan_single false '%' '(' ')' pre name post hpre hpost hf
  rw [hscan]
  simp only [List.foldl_cons, List.foldl_nil]
  rw [show sliceS ('%' :: '(' :: (name ++ [')'])) = (⟨name⟩ : String) by
        unfold sliceS; rw [slice2m1_match]]
  rw [hv]
  show String.mk (replaceAll ('%' :: '(' :: (name ++ [')'])) (pyStr val).data
        (pre ++ '%' :: '(' :: (name ++ ')' :: post))) = _
  rw [replaceAll_single '%' '(' ')' pre name post (pyStr val).data hpre hpost]

theorem expand_cvar_noop (fuel : Nat) (s : String) (fs : List (String × String))
    (h : ∀ v ∈ findCvars s, List.lookup (sliceS v) fs = none) :
    expand_cvar fuel s fs = s := by
  cases fuel with
  | zero => rfl
  | succ n =>
      unfold expand_cvar
      rw [foldl_fix _ _ _ (fun acc v hv => by rw [h v hv])]

theorem expand_cvar_single (fuel : Nat) (fs : List (String × String))
    (pre name post : List Char) (content : String)
    (hpre : ∀ c ∈ pre, c ≠ '%') (hpost : ∀ c ∈ post, c ≠ '%')
    (hpost2 : ']' ∉ post)
    (hn1 : ']' ∉ name) (hn2 : nlc ∉ name)
    (hc : List.lookup (⟨name⟩ : String) fs = some content) :
    expand_cvar (fuel + 1) ⟨pre ++ '%' :: '[' :: (name ++ ']' :: post)⟩ fs =
      ⟨pre ++ (expand_cvar fuel content fs).data ++ post⟩ := by
  have hf : findBody true ']' (name ++ ']' :: post) = some (name, post) := by
    rw [findBody_g]
    exact findCloseLast_exact (by decide) hn1 hn2 hpost2
  rw [show ∀ (t : String), expand_cvar (fuel + 1) t fs =
        ⟨(findCvars t).foldl (fun acc v =>
          match List.lookup (sliceS v) fs with
          | some content => replaceAll v (expand_cvar fuel content fs).data acc
          | none => acc) t.data⟩ from fun t => rfl]
  have hscan : findCvars ⟨pre ++ '%' :: '[' :: (name ++ ']' :: post)⟩ =
      ['%' :: '[' :: (name ++ [']'])] :=
    scan_single true '%' '[' ']' pre name post hpre hpost hf
  rw [hscan]
  simp only [List.foldl_cons, List.foldl_nil]
  rw [show sliceS ('%' :: '[' :: (name ++ [']'])) = (⟨name⟩ : String) by
        unfold sliceS; rw [slice2m1_match]]
  rw [hc]
  show String.mk (replaceAll ('%' :: '[' :: (name ++ [']'])) (expand_cvar fuel content fs).data
        (pre ++ '%' :: '[' :: (name ++ ']' :: post))) = _
  rw [replaceAll_single '%' '[' ']' pre name post (expand_cvar fuel content fs).data hpre hpost]

theorem expand_lvars_fix_iter (scope : PyDict) (s : String)
    (h : expand_lvars s scope = s) : ∀ n, lvarIter scope n s = s := by
  intro n
  induction n with
  | zero => rfl
  | succ m ih =>
      unfold lvarIter
      rw [Function.iterate_succ_apply']
      show expand_lvars (lvarIter scope m s) scope = s
      rw [ih, h]

theorem lvarIter_succ (scope : PyDict) (n : Nat) (s : String) :
    lvarIter scope (n + 1) s = expand_lvars (lvarIter scope n s) scope := by
  unfold lvarIter
  rw [Function.iterate_succ_apply']

theorem lvarIter_stab (scope : PyDict) (s : String) (k : Nat)
    (hs : lvarIter scope (k + 1) s = lvarIter scope k s) :
    ∀ m, lvarIter scope (k + m) s = lvarIter scope k s := by
  intro m
  induction m with
  | zero => rfl
  | succ j ih =>
      have h1 : k + (j + 1) = (k + j) + 1 := by omega
      have h2 : ∀ i : Nat, lvarIter scope (i + 1) s = expand_lvars (lvarIter scope i s) scope := by
        intro i
        unfold lvarIter
        rw [Function.iterate_succ_apply']
      rw [h1, h2 (k + j), ih, ← h2 k, hs]

theorem pyEq_refl (k : Value) : pyEq k k = true := by
  unfold pyEq
  cases hk : pyNum? k with
  | some m => simp
  | none => exact (vbeq_iff k k).mpr rfl

theorem pyEq_str_left (s : String) (j : Value) :
    pyEq (Value.str s) j = vbeq (Value.str s) j := rfl

theorem pyEq_str_left_iff (s : String) (j : Value) :
    pyEq (Value.str s) j = true ↔ Value.str s = j := by
  rw [pyEq_str_left]
  exact vbeq_iff _ _

theorem pyEq_str_false_of_ne {s : String} {j : Value} (h : Value.str s ≠ j) :
    pyEq (Value.str s) j = false := by
  cases hq : pyEq (Value.str s) j with
  | false => rfl
  | true => exact absurd ((pyEq_str_left_iff s j).mp hq) h

theorem pyDedup_subset : ∀ {l : List Value} {j : Value}, j ∈ pyDedup l → j ∈ l := by
  intro l
  induction l with
  | nil => intro j h; simp [pyDedup] at h
  | cons k rest ih =>
      intro j h
      simp only [pyDedup, List.mem_cons] at h
      cases h with
      | inl h => simp [h]
      | inr h => exact List.mem_cons_of_mem _ (ih (List.mem_of_mem_filter h))

theorem pyDedup_nodup : ∀ (l : List Value), (pyDedup l).Nodup := by
  intro l
  induction l with
  | nil => simp [pyDedup]
  | cons k rest ih =>
      simp only [pyDedup]
      rw [List.nodup_cons]
      constructor
      · intro hmem
        have h2 := List.of_mem_filter hmem
        rw [pyEq_refl] at h2
        simp at h2
      · exact List.Nodup.filter _ ih

theorem mem_pyDedup : ∀ {l : List Value},
    (∀ a ∈ l, ∀ b ∈ l, pyEq a b = true → a = b) →
    ∀ {j : Value}, (j ∈ pyDedup l ↔ j ∈ l) := by
  intro l
  induction l with
  | nil => intro _ j; simp [pyDedup]
  | cons k rest ih =>
      intro hs j
      constructor
      · intro h
        exact pyDedup_subset h
      · intro h
        simp only [pyDedup, List.mem_cons]
        rcases List.mem_cons.mp h with h1 | h1
        · exact Or.inl h1
        · by_cases hjk : pyEq j k = true
          · exact Or.inl (hs j (by simp [h1]) k (by simp) hjk)
          · right
            rw [List.mem_filter]
            have hrec : ∀ a ∈ rest, ∀ b ∈ rest, pyEq a b = true → a = b :=
              fun a ha b hb hab => hs a (by simp [ha]) b (by simp [hb]) hab
            exact ⟨(ih hrec).mpr h1, by simp [hjk]⟩

theorem dictInsert_fresh : ∀ (acc : PyDict) (k v : Value),
    (∀ kv ∈ acc, pyEq kv.1 k = false) → dictInsert acc k v = acc ++ [(k, v)] := by
  intro acc
  induction acc with
  | nil => intro k v _; rfl
  | cons kv0 rest ih =>
      intro k v h
      obtain ⟨k0, v0⟩ := kv0
      have h0 : pyEq k0 k = false := h (k0, v0) (by simp)
      simp only [dictInsert]
      rw [if_neg (by simp [h0])]
      rw [ih k v (fun kv hm => h kv (by simp [hm]))]
      rfl

theorem keysOf_dictInsert : ∀ (acc : PyDict) (k v : Value),
    ∀ j ∈ keysOf (dictInsert acc k v), j ∈ keysOf acc ∨ j = k := by
  intro acc
  induction acc with
  | nil =>
      intro k v j hj
      simp [dictInsert, keysOf] at hj
      simp [hj]
  | cons kv0 rest ih =>
      intro k v j hj
      obtain ⟨k0, v0⟩ := kv0
      simp only [dictInsert] at hj
      by_cases h0 : pyEq k0 k = true
      · rw [if_pos h0] at hj
        simp only [keysOf, List.map_cons, List.mem_cons] at hj ⊢
        rcases hj with h | h
        · exact Or.inl (Or.inl h)
        · exact Or.inl (Or.inr h)
      · rw [if_neg h0] at hj
        simp only [keysOf, List.map_cons, List.mem_cons] at hj ⊢
        rcases hj with h | h
        · exact Or.inl (Or.inl h)
        · rcases ih k v j h with h2 | h2
          · exact Or.inl (Or.inr h2)
          · exact Or.inr h2

theorem foldl_insert_fresh (f g : Value → Value) :
    ∀ (ks : List Value) (acc : PyDict),
      List.Pairwise (fun a b => pyEq (f a) (f b) = false) ks →
      (∀ kv ∈ acc, ∀ k ∈ ks, pyEq kv.1 (f k) = false) →
      ks.foldl (fun acc k => dictInsert acc (f k) (g k)) acc =
        acc ++ ks.map (fun k => (f k, g k)) := by
  intro ks
  induction ks with
  | nil => intro acc _ _; simp
  | cons k0 rest ih =>
      intro acc hpw hacc
      have hpc := List.pairwise_cons.mp hpw
      simp only [List.foldl_cons]
      rw [dictInsert_fresh acc (f k0) (g k0) (fun kv hm => hacc kv hm k0 (by simp))]
      rw [ih (acc ++ [(f k0, g k0)]) hpc.2 ?fresh]
      · simp
      case fresh =>
        intro kv hkv k hk
        rcases List.mem_append.mp hkv with h | h
        · exact hacc kv h k (by simp [hk])
        · simp only [List.mem_singleton] at h
          rw [h]
          exact hpc.1 k hk

theorem foldl_insert_keys (f g : Value → Value) :
    ∀ (ks : List Value) (acc : PyDict),
      ∀ j ∈ keysOf (ks.foldl (fun acc k => dictInsert acc (f k) (g k)) acc),
        j ∈ keysOf acc ∨ ∃ k ∈ ks, j = f k := by
  intro ks
  induction ks with
  | nil => intro acc j hj; exact Or.inl hj
  | cons k0 rest ih =>
      intro acc j hj
      simp only [List.foldl_cons] at hj
      rcases ih (dictInsert acc (f k0) (g k0)) j hj with h | h
      · rcases keysOf_dictInsert acc (f k0) (g k0) j h with h2 | h2
        · exact Or.inl h2
        · exact Or.inr ⟨k0, by simp, h2⟩
      · obtain ⟨k, hk, he⟩ := h
        exact Or.inr ⟨k, by simp [hk], he⟩

theorem merge_keys_from_union (A B : PyDict) :
    ∀ k ∈ keysOf (merge A B),
      ∃ j, (j ∈ keysOf A ∨ j ∈ keysOf B) ∧ k = Value.str (pyStr j) := by
  intro k hk
  unfold merge at hk
  rcases foldl_insert_keys _ _ (pyDedup (keysOf B ++ keysOf A)) [] k hk with h | h
  · simp [keysOf] at h
  · obtain ⟨j, hj, he⟩ := h
    have hj2 := pyDedup_subset hj
    rw [List.mem_append] at hj2
    exact ⟨j, hj2.symm, he⟩

theorem coerced_pairwise (A B : PyDict)
    (hinj : ∀ a ∈ keysOf B ++ keysOf A, ∀ b ∈ keysOf B ++ keysOf A,
      pyStr a = pyStr b → a = b) :
    List.Pairwise (fun a b => pyEq (Value.str (pyStr a)) (Value.str (pyStr b)) = false)
      (pyDedup (keysOf B ++ keysOf A)) := by
  have hnd := pyDedup_nodup (keysOf B ++ keysOf A)
  refine List.Pairwise.imp_of_mem ?_ hnd
  intro a b ha hb hab
  refine pyEq_str_false_of_ne ?_
  intro hcon
  have hps : pyStr a = pyStr b := Value.str.inj hcon
  exact hab (hinj a (pyDedup_subset ha) b (pyDedup_subset hb) hps)

theorem merge_eq_map (A B : PyDict)
    (hpw : List.Pairwise
      (fun a b => pyEq (Value.str (pyStr a)) (Value.str (pyStr b)) = false)
      (pyDedup (keysOf B ++ keysOf A))) :
    merge A B = (pyDedup (keysOf B ++ keysOf A)).map
      (fun k => (Value.str (pyStr k), choose k A B)) := by
  unfold merge
  rw [foldl_insert_fresh _ _ _ [] hpw (by intro kv hm; simp at hm)]
  simp

theorem merge_mem_pairs (A B : PyDict)
    (hne : ∀ a ∈ keysOf B ++ keysOf A, ∀ b ∈ keysOf B ++ keysOf A,
      pyEq a b = true → a = b)
    (hinj : ∀ a ∈ keysOf B ++ keysOf A, ∀ b ∈ keysOf B ++ keysOf A,
      pyStr a = pyStr b → a = b) :
    ∀ j, (j ∈ keysOf A ∨ j ∈ keysOf B) →
      (Value.str (pyStr j), choose j A B) ∈ merge A B := by
  intro j hj
  rw [merge_eq_map A B (coerced_pairwise A B hinj)]
  have hmem : j ∈ pyDedup (keysOf B ++ keysOf A) := by
    rw [mem_pyDedup hne, List.mem_append]
    exact hj.symm
  exact List.mem_map.mpr ⟨j, hmem, rfl⟩

theorem find?_pyEq_map_keyed {l : List Value} (g : Value → Value × Value)
    (hg : ∀ j ∈ l, (g j).1 = j) (hstr : ∀ j ∈ l, ∃ t, j = Value.str t) :
    ∀ (k : Value), k ∈ l →
      (l.map g).find? (fun kv => pyEq kv.1 k) = some (g k) := by
  induction l with
  | nil => intro k hk; simp at hk
  | cons j l2 ih =>
      intro k hk
      have hj : (g j).1 = j := hg j (by simp)
      by_cases hjk : j = k
      · subst hjk
        simp only [List.map_cons, List.find?_cons]
        rw [hj, pyEq_refl j]
      · have hk2 : k ∈ l2 := by
          cases List.mem_cons.mp hk with
          | inl h => exact absurd h.symm hjk
          | inr h => exact h
        obtain ⟨t, ht⟩ := hstr j (by simp)
        simp only [List.map_cons, List.find?_cons]
        rw [hj]
        have hne : pyEq j k = false := by
          subst ht
          exact pyEq_str_false_of_ne hjk
        rw [hne]
        exact ih (fun a ha => hg a (by simp [ha])) (fun a ha => hstr a (by simp [ha])) k hk2

theorem find?_pyEq_map_none {l : List Value} (g : Value → Value × Value)
    (hg : ∀ j ∈ l, (g j).1 = j) (hstr : ∀ j ∈ l, ∃ t, j = Value.str t) :
    ∀ (k : Value), k ∉ l →
      (l.map g).find? (fun kv => pyEq kv.1 k) = none := by
  induction l with
  | nil => intro k _; rfl
  | cons j l2 ih =>
      intro k hk
      have hj : (g j).1 = j := hg j (by simp)
      have hjk : j ≠ k := fun hh => hk (by simp [hh])
      obtain ⟨t, ht⟩ := hstr j (by simp)
      simp only [List.map_cons, List.find?_cons]
      rw [hj]
      have hne : pyEq j k = false := by
        subst ht
        exact pyEq_str_false_of_ne hjk
      rw [hne]
      exact ih (fun a ha => hg a (by simp [ha])) (fun a ha => hstr a (by simp [ha])) k
        (fun hm => hk (by simp [hm]))

theorem find?_pyEq_none_of_not_key {d : PyDict} {k : Value}
    (hstr : ∀ j ∈ keysOf d, ∃ t, j = Value.str t) (h : k ∉ keysOf d) :
    d.find? (fun kv => pyEq kv.1 k) = none := by
  induction d with
  | nil => rfl
  | cons kv d2 ih =>
      obtain ⟨t, ht⟩ := hstr kv.1 (by simp [keysOf])
      have h1 : kv.1 ≠ k := fun hh => h (by simp [keysOf, hh])
      simp only [List.find?_cons]
      have hne : pyEq kv.1 k = false := by
        rw [ht]
        exact pyEq_str_false_of_ne (ht ▸ h1)
      rw [hne]
      refine ih ?_ ?_
      · intro j hj
        exact hstr j (by simp [keysOf] at hj ⊢; exact Or.inr hj)
      · intro hm
        exact h (by simp [keysOf] at hm ⊢; exact Or.inr hm)

theorem merge_string_keyed (A B : PyDict)
    (hA : ∀ k ∈ keysOf A, ∃ t, k = Value.str t)
    (hB : ∀ k ∈ keysOf B, ∃ t, k = Value.str t) :
    (∀ k, k ∈ keysOf (merge A B) ↔ (k ∈ keysOf A ∨ k ∈ keysOf B)) ∧
    (∀ k, pyGet (merge A B) k = choose k A B) := by
  have hstrU : ∀ a ∈ keysOf B ++ keysOf A, ∃ t, a = Value.str t := by
    intro a ha
    rcases List.mem_append.mp ha with h | h
    exacts [hB a h, hA a h]
  have hne : ∀ a ∈ keysOf B ++ keysOf A, ∀ b ∈ keysOf B ++ keysOf A,
      pyEq a b = true → a = b := by
    intro a ha b hb hab
    obtain ⟨t, ht⟩ := hstrU a ha
    subst ht
    exact (pyEq_str_left_iff t b).mp hab
  have hinj : ∀ a ∈ keysOf B ++ keysOf A, ∀ b ∈ keysOf B ++ keysOf A,
      pyStr a = pyStr b → a = b := by
    intro a ha b hb hab
    obtain ⟨t, ht⟩ := hstrU a ha
    obtain ⟨u, hu⟩ := hstrU b hb
    subst ht
    subst hu
    exact congrArg Value.str hab
  have hmap := merge_eq_map A B (coerced_pairwise A B hinj)
  have hstrD : ∀ j ∈ pyDedup (keysOf B ++ keysOf A), ∃ t, j = Value.str t :=
    fun j hj => hstrU j (pyDedup_subset hj)
  have hgD : ∀ j ∈ pyDedup (keysOf B ++ keysOf A),
      ((fun k => (Value.str (pyStr k), choose k A B)) j).1 = j := by
    intro j hj
    obtain ⟨t, ht⟩ := hstrD j hj
    subst ht
    rfl
  constructor
  · intro k
    constructor
    · intro hk
      obtain ⟨j, hj, hjk⟩ := merge_keys_from_union A B k hk
      have hjs : ∃ t, j = Value.str t := by
        cases hj with
        | inl h => exact hA j h
        | inr h => exact hB j h
      obtain ⟨t, ht⟩ := hjs
      subst ht
      rw [hjk]
      exact hj
    · intro hk
      have hp := merge_mem_pairs A B hne hinj k hk
      have hks : ∃ t, k = Value.str t := by
        cases hk with
        | inl h => exact hA k h
        | inr h => exact hB k h
      obtain ⟨t, ht⟩ := hks
      subst ht
      unfold keysOf
      exact List.mem_map.mpr ⟨_, hp, rfl⟩
  · intro k
    rw [hmap]
    by_cases hk : k ∈ keysOf A ∨ k ∈ keysOf B
    · have hmem : k ∈ pyDedup (keysOf B ++ keysOf A) := by
        rw [mem_pyDedup hne, List.mem_append]
        exact hk.symm
      unfold pyGet
      rw [find?_pyEq_map_keyed _ hgD hstrD k hmem]
    · push_neg at hk
      have hmem : k ∉ pyDedup (keysOf B ++ keysOf A) := by
        intro hm
        rcases List.mem_append.mp (pyDedup_subset hm) with h | h
        · exact hk.2 h
        · exact hk.1 h
      unfold pyGet
      rw [find?_pyEq_map_none _ hgD hstrD k hmem]
      unfold choose pyGet
      rw [find?_pyEq_none_of_not_key hA hk.1, find?_pyEq_none_of_not_key hB hk.2]

theorem lastDotPart_no_dot : ∀ {l : List Char}, '.' ∉ l → lastDotPart l = l := by
  intro l
  induction l with
  | nil => intro _; rfl
  | cons c rest ih =>
      intro h
      have hc : c ≠ '.' := fun hh => h (by simp [hh])
      have hr : '.' ∉ rest := fun hm => h (by simp [hm])
      unfold lastDotPart
      rw [if_neg hc, if_neg hr]

theorem lastDotPart_append (xs : List Char) :
    ∀ (ys : List Char), '.' ∉ ys → lastDotPart (xs ++ '.' :: ys) = ys := by
  induction xs with
  | nil =>
      intro ys h
      show lastDotPart ('.' :: ys) = ys
      unfold lastDotPart
      rw [if_pos rfl]
      exact lastDotPart_no_dot h
  | cons x xr ih =>
      intro ys h
      show lastDotPart (x :: (xr ++ '.' :: ys)) = ys
      unfold lastDotPart
      by_cases hx : x = '.'
      · rw [if_pos hx]
        exact ih ys h
      · rw [if_neg hx, if_pos (by simp), ih ys h]

theorem load_bad_format (fuel : Nat) (fs env : List (String × String)) (fname : String)
    (h : get_format fname ∉ JSON ++ YAML) :
    load fuel fs env fname none = .error .configFormat := by
  unfold load
  simp only [Option.getD_none]
  rw [if_neg h]

/-! Claim theorems. Each claim of the review list gets one theorem here,
together with a witness when the theorem carries hypotheses, and a
counterexample theorem when the claim as originally stated fails on the
embedded code. -/

/-- C1, amended: after the merge step the loader returns the merged
mapping as is. No local-variable expansion runs with the merged mapping
as scope, so a reference left unresolved by the file-scope expansion
stays literal even when the command line binds its name; the
counterexample below exhibits this. -/
theorem C1_merge_returned_raw (cargs : List (String × Value)) (fs env : List (String × String))
    (fuel : Nat) (cargs2 : PyDict) (fname : String) (dd : PyDict)
    (h1 : parse_cmd_args (stripKeys cargs) = cargs2)
    (h2 : dictGet? cargs2 "config" = some (Value.str fname))
    (h3 : fname ≠ "")
    (h4 : load fuel fs env fname none = .ok (.dict dd)) :
    config cargs fs env fuel = .ok (merge cargs2 dd) := by
  unfold config
  rw [h1]
  show (match dictGet? cargs2 "config" with
    | some v =>
      if pyTruthy v = true then
        match v with
        | Value.str fname =>
          (match load fuel fs env fname none with
          | Except.ok (Value.dict dd) => Except.ok (merge cargs2 dd)
          | Except.ok _ => Except.error LoadErr.typeError
          | Except.error e => Except.error e)
        | _ => Except.error LoadErr.typeError
      else Except.ok cargs2
    | none => Except.ok cargs2) = Except.ok (merge cargs2 dd)
  rw [h2]
  show (if pyTruthy (Value.str fname) = true then
      (match load fuel fs env fname none with
        | Except.ok (Value.dict dd) => Except.ok (merge cargs2 dd)
        | Except.ok _ => Except.error LoadErr.typeError
        | Except.error e => Except.error e)
    else Except.ok cargs2) = Except.ok (merge cargs2 dd)
  rw [if_pos (by simp [pyTruthy, h3])]
  rw [h4]

/-- C1 witness: the amended claim instantiated on the concrete run with a
config file and a host option. -/
theorem C1_witness :
    config cargsC1 fsC1 [] 5 = .ok (merge cargs2C1 cfileC1) :=
  C1_merge_returned_raw cargsC1 fsC1 [] 5 cargs2C1 "f.json" cfileC1
    rfl rfl (by decide) rfl

/-- C1 counterexample: on the concrete run the returned document keeps
the literal reference at the greeting key, although the command line
binds host; the spec-modelled post-merge expansion of step 5 would have
produced h1 there instead. -/
theorem C1_counterexample :
    config cargsC1 fsC1 [] 5 = .ok mergedC1 ∧
    dictGet? mergedC1 "greeting" = some (Value.str "%(host)") ∧
    specPostExpand mergedC1 =
      some (Value.dict [(Value.str "greeting", Value.str "h1"),
                        (Value.str "config", Value.str "f.json"),
                        (Value.str "host", Value.str "h1")]) ∧
    Value.str "%(host)" ≠ Value.str "h1" :=
  ⟨rfl, rfl, rfl, by decide⟩

/-- C2, amended: an include whose name matches no file is a silent no-op
of the expansion, which returns its input unchanged instead of raising a
FileNotFound condition. -/
theorem C2_missing_include_silent (fuel : Nat) (s : String) (fs : List (String × String))
    (h : ∀ v ∈ findCvars s, List.lookup (sliceS v) fs = none) :
    expand_cvar fuel s fs = s :=
  expand_cvar_noop fuel s fs h

/-- C2 witness: the amended claim on a concrete missing include. -/
theorem C2_witness :
    expand_cvar 3 "x: %[gone.yaml]" [] = "x: %[gone.yaml]" :=
  C2_missing_include_silent 3 "x: %[gone.yaml]" [] (by decide)

/-- C2 counterexample: loading a file that references a missing include
succeeds and returns the partially-expanded document with the include
expression still present, instead of failing with FileNotFound. -/
theorem C2_counterexample :
    List.lookup "missing.yaml" fsC2 = none ∧
    load 5 fsC2 [] "a.json" none =
      .ok (.dict [(Value.str "x", Value.str "%[missing.yaml]")]) :=
  ⟨rfl, rfl⟩

/-- C3, amended: local-variable expansion during loading substitutes the
Python str dump of the bound value whatever its type; a name bound to a
container is dumped in place, and no TypeMismatch condition is raised on
this path (the type check of the source lives only in the unused
lookup-based expander). -/
theorem C3_container_dump_substituted (scope : PyDict) (pre name post : List Char)
    (val : Value)
    (hpre : ∀ c ∈ pre, c ≠ '%') (hpost : ∀ c ∈ post, c ≠ '%')
    (hn1 : ')' ∉ name) (hn2 : nlc ∉ name)
    (hv : dictGet? scope ⟨name⟩ = some val) :
    expand_lvars ⟨pre ++ '%' :: '(' :: (name ++ ')' :: post)⟩ scope =
      ⟨pre ++ (pyStr val).data ++ post⟩ :=
  expand_lvars_single scope pre name post val hpre hpost hn1 hn2 hv

/-- C3 witness: the amended claim on a scope binding the name to a
mapping, which is not a basic scalar type. -/
theorem C3_witness :
    expand_lvars ⟨"x: ".data ++ '%' :: '(' :: ("server".data ++ ')' :: [])⟩
        [(Value.str "server", serverC3)] =
      ⟨"x: ".data ++ (pyStr serverC3).data ++ []⟩ ∧
    basic_type serverC3 = false :=
  ⟨C3_container_dump_substituted [(Value.str "server", serverC3)]
      ("x: ".data) ("server".data) [] serverC3
      (by decide) (by decide) (by decide) (by decide) rfl,
   rfl⟩

/-- C3 counterexample: loading a document whose local variable resolves
to a nested mapping succeeds, substituting the textual dump of the
container, instead of failing with TypeMismatch. -/
theorem C3_counterexample :
    basic_type serverC3 = false ∧
    load 5 fsC3 [] "t.json" none =
      .ok (.dict [(Value.str "server", serverC3),
                  (Value.str "v", Value.str (pyStr serverC3))]) :=
  ⟨rfl, rfl⟩

/-- C4, amended: when every key of both mappings is a string, the key set
of the merged mapping is exactly the union of the two key sets and the
value at every key follows the choose rule (primary unless None, else
secondary, null when absent from both); with a non-string key the merged
key set instead holds the str coercion of the key, as the counterexample
shows. -/
theorem C4_merge_union_and_precedence (A B : PyDict)
    (hA : ∀ k ∈ keysOf A, ∃ t, k = Value.str t)
    (hB : ∀ k ∈ keysOf B, ∃ t, k = Value.str t) :
    (∀ k, k ∈ keysOf (merge A B) ↔ (k ∈ keysOf A ∨ k ∈ keysOf B)) ∧
    (∀ k, pyGet (merge A B) k = choose k A B) :=
  merge_string_keyed A B hA hB

/-- C4 witness: the amended claim on two concrete string-keyed mappings,
checking the precedence at a shared key and the presence of a
secondary-only key. -/
theorem C4_witness :
    pyGet (merge wMergeA wMergeB) (Value.str "a") = choose (Value.str "a") wMergeA wMergeB ∧
    Value.str "b" ∈ keysOf (merge wMergeA wMergeB) := by
  have h := C4_merge_union_and_precedence wMergeA wMergeB
    (by intro k hk; simp [keysOf, wMergeA] at hk; exact ⟨"a", hk⟩)
    (by
      intro k hk
      simp [keysOf, wMergeB] at hk
      cases hk with
      | inl h1 => exact ⟨"a", h1⟩
      | inr h1 => exact ⟨"b", h1⟩)
  exact ⟨h.2 (Value.str "a"), (h.1 (Value.str "b")).mpr (Or.inr (by decide))⟩

/-- C4 counterexample: a mapping with the boolean key True merges into a
mapping keyed by the string True, so the merged key set is not the union
of the input key sets. -/
theorem C4_counterexample :
    merge [(Value.bool true, Value.int 1)] [] = [(Value.str "True", Value.int 1)] ∧
    Value.bool true ∈ keysOf [(Value.bool true, Value.int 1)] ∧
    Value.bool true ∉ keysOf (merge [(Value.bool true, Value.int 1)] []) :=
  ⟨rfl, by decide, by decide⟩

/-- C5: the source load expands includes before environment variables,
although its own module docstring and the spec put environment expansion
first; on the concrete run the environment expression inside the included
file is expanded, which the documented order would leave literal. -/
theorem C5_include_before_environment :
    load 5 fsC5 envC5 "a.json" none = .ok (.dict [(Value.str "x", Value.str "/root")]) ∧
    codePhases 5 fsC5 envC5 "\x7b\"x\": \"%[inc.txt]\"\x7d" = "\x7b\"x\": \"/root\"\x7d" ∧
    specPhases 5 fsC5 envC5 "\x7b\"x\": \"%[inc.txt]\"\x7d" = "\x7b\"x\": \"$(HOME)\"\x7d" ∧
    ("\x7b\"x\": \"/root\"\x7d" : String) ≠ "\x7b\"x\": \"$(HOME)\"\x7d" :=
  ⟨rfl, rfl, rfl, by decide⟩

/-- C6, amended: include resolution tries the include name as one literal
path (resolved against the working directory of the process); when that
path exists its recursively expanded content replaces the expression, and
no search-path list or including-file directory is consulted, as the
counterexample shows. -/
theorem C6_literal_path_resolution (fuel : Nat) (fs : List (String × String))
    (pre name post : List Char) (content : String)
    (hpre : ∀ c ∈ pre, c ≠ '%') (hpost : ∀ c ∈ post, c ≠ '%')
    (hpost2 : ']' ∉ post)
    (hn1 : ']' ∉ name) (hn2 : nlc ∉ name)
    (hc : List.lookup (⟨name⟩ : String) fs = some content) :
    expand_cvar (fuel + 1) ⟨pre ++ '%' :: '[' :: (name ++ ']' :: post)⟩ fs =
      ⟨pre ++ (expand_cvar fuel content fs).data ++ post⟩ :=
  expand_cvar_single fuel fs pre name post content hpre hpost hpost2 hn1 hn2 hc

/-- C6 witness: the amended claim on a concrete include found at its
literal path. -/
theorem C6_witness :
    expand_cvar 1 ⟨"x: ".data ++ '%' :: '[' :: ("b.txt".data ++ ']' :: [])⟩
        [("b.txt", "y: 1")] =
      ⟨"x: ".data ++ (expand_cvar 0 "y: 1" [("b.txt", "y: 1")]).data ++ []⟩ :=
  C6_literal_path_resolution 0 [("b.txt", "y: 1")] ("x: ".data) ("b.txt".data) []
    "y: 1" (by decide) (by decide) (by decide) (by decide) (by decide) rfl

/-- C6 counterexample: the included file exists in the directory of the
including file but not at the bare path the expression names, and the
expression is left unresolved instead of being substituted with the
content of the file found on the search path. -/
theorem C6_counterexample :
    List.lookup "dir/b.txt" fsC6 = some "hello" ∧
    List.lookup "b.txt" fsC6 = none ∧
    load 5 fsC6 [] "dir/a.json" none =
      .ok (.dict [(Value.str "x", Value.str "%[b.txt]")]) :=
  ⟨rfl, rfl, rfl⟩

/-- C7, amended: once a pass of local-variable expansion fixes the text,
every further pass fixes it too, and whenever the first stabilized pass
occurs within the ten-pass cap, the cap yields the same text as stopping
at stabilization; an acyclic chain deeper than the cap falsifies the
unconditional form, as the counterexample shows. -/
theorem C7_cap_reaches_fixed_point (scope : PyDict) (s : String) :
    (expand_lvars s scope = s → ∀ n, lvarIter scope n s = s) ∧
    (∀ k, k ≤ 10 → lvarIter scope (k + 1) s = lvarIter scope k s →
      lvarIter scope 10 s = lvarIter scope k s) := by
  constructor
  · exact expand_lvars_fix_iter scope s
  · intro k hk hs
    have h10 : 10 = k + (10 - k) := by omega
    rw [h10, lvarIter_stab scope s k hs (10 - k)]

/-- C7 witness: the amended claim on a scope where the text stabilizes
after one pass. -/
theorem C7_witness :
    lvarIter [(Value.str "a", Value.str "1")] 10 "%(a)" =
      lvarIter [(Value.str "a", Value.str "1")] 1 "%(a)" :=
  (C7_cap_reaches_fixed_point [(Value.str "a", Value.str "1")] "%(a)").2 1
    (by decide) (by decide)

/-- C7 counterexample: an acyclic local-variable chain of depth twelve
stabilizes first at pass twelve, and the ten-pass cap stops earlier with
a different text, so the cap does not equal iteration to the first
stabilized pass. -/
theorem C7_counterexample :
    lvarIter chainScope 12 "%(k0)" = lvarIter chainScope 13 "%(k0)" ∧
    lvarIter chainScope 11 "%(k0)" ≠ lvarIter chainScope 12 "%(k0)" ∧
    lvarIter chainScope 10 "%(k0)" ≠ lvarIter chainScope 12 "%(k0)" := by
  have e0 : expand_lvars "%(k0)" chainScope = "a%(k1)" := by decide
  have e1 : expand_lvars "a%(k1)" chainScope = "aa%(k2)" := by decide
  have e2 : expand_lvars "aa%(k2)" chainScope = "aaa%(k3)" := by decide
  have e3 : expand_lvars "aaa%(k3)" chainScope = "aaaa%(k4)" := by decide
  have e4 : expand_lvars "aaaa%(k4)" chainScope = "aaaaa%(k5)" := by decide
  have e5 : expand_lvars "aaaaa%(k5)" chainScope = "aaaaaa%(k6)" := by decide
  have e6 : expand_lvars "aaaaaa%(k6)" chainScope = "aaaaaaa%(k7)" := by decide
  have e7 : expand_lvars "aaaaaaa%(k7)" chainScope = "aaaaaaaa%(k8)" := by decide
  have e8 : expand_lvars "aaaaaaaa%(k8)" chainScope = "aaaaaaaaa%(k9)" := by decide
  have e9 : expand_lvars "aaaaaaaaa%(k9)" chainScope = "aaaaaaaaaa%(k10)" := by decide
  have e10 : expand_lvars "aaaaaaaaaa%(k10)" chainScope = "aaaaaaaaaaa%(k11)" := by decide
  have e11 : expand_lvars "aaaaaaaaaaa%(k11)" chainScope = "aaaaaaaaaaaend" := by decide
  have e12 : expand_lvars "aaaaaaaaaaaend" chainScope = "aaaaaaaaaaaend" := by decide
  have i0 : lvarIter chainScope 0 "%(k0)" = "%(k0)" := rfl
  have i1 : lvarIter chainScope 1 "%(k0)" = "a%(k1)" := by
    rw [show (1 : Nat) = 0 + 1 from rfl, lvarIter_succ, i0, e0]
  have i2 : lvarIter chainScope 2 "%(k0)" = "aa%(k2)" := by
    rw [show (2 : Nat) = 1 + 1 from rfl, lvarIter_succ, i1, e1]
  have i3 : lvarIter chainScope 3 "%(k0)" = "aaa%(k3)" := by
    rw [show (3 : Nat) = 2 + 1 from rfl, lvarIter_succ, i2, e2]
  have i4 : lvarIter chainScope 4 "%(k0)" = "aaaa%(k4)" := by
    rw [show (4 : Nat) = 3 + 1 from rfl, lvarIter_succ, i3, e3]
  have i5 : lvarIter chainScope 5 "%(k0)" = "aaaaa%(k5)" := by
    rw [show (5 : Nat) = 4 + 1 from rfl, lvarIter_succ, i4, e4]
  have i6 : lvarIter chainScope 6 "%(k0)" = "aaaaaa%(k6)" := by
    rw [show (6 : Nat) = 5 + 1 from rfl, lvarIter_succ, i5, e5]
  have i7 : lvarIter chainScope 7 "%(k0)" = "aaaaaaa%(k7)" := by
    rw [show (7 : Nat) = 6 + 1 from rfl, lvarIter_succ, i6, e6]
  have i8 : lvarIter chainScope 8 "%(k0)" = "aaaaaaaa%(k8)" := by
    rw [show (8 : Nat) = 7 + 1 from rfl, lvarIter_succ, i7, e7]
  have i9 : lvarIter chainScope 9 "%(k0)" = "aaaaaaaaa%(k9)" := by
    rw [show (9 : Nat) = 8 + 1 from rfl, lvarIter_succ, i8, e8]
  have i10 : lvarIter chainScope 10 "%(k0)" = "aaaaaaaaaa%(k10)" := by
    rw [show (10 : Nat) = 9 + 1 from rfl, lvarIter_succ, i9, e9]
  have i11 : lvarIter chainScope 11 "%(k0)" = "aaaaaaaaaaa%(k11)" := by
    rw [show (11 : Nat) = 10 + 1 from rfl, lvarIter_succ, i10, e10]
  have i12 : lvarIter chainScope 12 "%(k0)" = "aaaaaaaaaaaend" := by
    rw [show (12 : Nat) = 11 + 1 from rfl, lvarIter_succ, i11, e11]
  have i13 : lvarIter chainScope 13 "%(k0)" = "aaaaaaaaaaaend" := by
    rw [show (13 : Nat) = 12 + 1 from rfl, lvarIter_succ, i12, e12]
  refine ⟨by rw [i12, i13], by rw [i11, i12]; decide, by rw [i10, i12]; decide⟩

/-- C8, amended: environment expansion leaves a text with no resolvable
match unchanged, and replaces a matched expression everywhere in the
current text with the bound value, without rescanning the replacement for
new matches; but because each matched expression is replaced by a blanket
string replace over the evolving text, syntax introduced by an earlier
substitution is rewritten when it equals a later-matched expression, as
the counterexample shows. -/
theorem C8_single_pass_replacement (env : List (String × String)) (s : String)
    (pre name post : List Char) (w : String)
    (hs : ∀ v ∈ findEvars s, List.lookup (sliceS v) env = none)
    (hpre : ∀ c ∈ pre, c ≠ '$') (hpost : ∀ c ∈ post, c ≠ '$')
    (hn1 : ')' ∉ name) (hn2 : nlc ∉ name)
    (hw : List.lookup (⟨name⟩ : String) env = some w) :
    expand_evar s env = s ∧
    expand_evar ⟨pre ++ '$' :: '(' :: (name ++ ')' :: post)⟩ env =
      ⟨pre ++ w.data ++ post⟩ :=
  ⟨expand_evar_noop s env hs,
   expand_evar_single env pre name post w hpre hpost hn1 hn2 hw⟩

/-- C8 witness: the amended claim on a concrete unset reference and a
concrete set reference. -/
theorem C8_witness :
    expand_evar "$(U)" [("HOME", "/x")] = "$(U)" ∧
    expand_evar ⟨"a ".data ++ '$' :: '(' :: ("HOME".data ++ ')' :: [])⟩ [("HOME", "/x")] =
      ⟨"a ".data ++ "/x".data ++ []⟩ :=
  C8_single_pass_replacement [("HOME", "/x")] "$(U)" ("a ".data) ("HOME".data) [] "/x"
    (by decide) (by decide) (by decide) (by decide) (by decide) rfl

/-- C8 counterexample: with A bound to a text that equals the later match
and B bound to y, the expression introduced by the substitution of A is
itself rewritten by the blanket replacement of B, although the claim says
introduced expression syntax is never expanded. -/
theorem C8_counterexample :
    expand_evar "$(A) $(B)" envC8 = "y y" ∧ ("y y" : String) ≠ "$(B) y" :=
  ⟨rfl, by decide⟩

/-- C9, amended: the inferred format is the text after the final dot of
the filename taken verbatim, with no lower-casing; json selects the
compact reader and yaml or yml the indented reader, and any other
extension, upper-case spellings included, makes load fail immediately
with the ConfigFormat error. -/
theorem C9_verbatim_extension (stem ext : List Char) (fuel : Nat)
    (fs env : List (String × String)) (fname : String)
    (h1 : '.' ∉ ext) (h2 : get_format fname ∉ JSON ++ YAML) :
    get_format ⟨stem ++ '.' :: ext⟩ = ⟨ext⟩ ∧
    load fuel fs env fname none = .error .configFormat := by
  constructor
  · show String.mk (lastDotPart (stem ++ '.' :: ext)) = _
    rw [lastDotPart_append stem ext h1]
  · exact load_bad_format fuel fs env fname h2

/-- C9 witness: the amended claim on the concrete upper-case extension. -/
theorem C9_witness :
    get_format ⟨"conf".data ++ '.' :: "YAML".data⟩ = ⟨"YAML".data⟩ ∧
    load 1 fsC9 [] "conf.YAML" none = .error .configFormat :=
  C9_verbatim_extension ("conf".data) ("YAML".data) 1 fsC9 [] "conf.YAML"
    (by decide) (by decide)

/-- C9 counterexample: a file with extension YAML exists and holds a
valid document, yet load fails with ConfigFormat because the extension is
matched verbatim, while the lower-case twin loads as an indented-format
document; the claim predicts the lower-cased extension yaml would select
the indented format for both. -/
theorem C9_counterexample :
    get_format "conf.YAML" = "YAML" ∧
    List.lookup "conf.YAML" fsC9 = some "a: 1" ∧
    load 5 fsC9 [] "conf.YAML" none = .error .configFormat ∧
    load 5 fsC9 [] "conf.yaml" none = .ok (.dict [(Value.str "a", Value.int 1)]) :=
  ⟨rfl, rfl, rfl, rfl⟩

/-- C10, amended: every key of the merged mapping is the Python str form
of a key of one of the inputs; and when the keys of the union are neither
identified by Python equality (as True and 1 are) nor collide after str
coercion (as 1 and the string 1 do), every key of either input
contributes the entry of its str form and chosen value, kept even when
that value is null. When two union keys coerce to the same string the
dict constructor collapses them to one entry, last write wins, as the
counterexample shows. -/
theorem C10_keys_coerced_nulls_kept (A B : PyDict)
    (hne : ∀ a ∈ keysOf B ++ keysOf A, ∀ b ∈ keysOf B ++ keysOf A,
      pyEq a b = true → a = b)
    (hinj : ∀ a ∈ keysOf B ++ keysOf A, ∀ b ∈ keysOf B ++ keysOf A,
      pyStr a = pyStr b → a = b) :
    (∀ k ∈ keysOf (merge A B), ∃ j, (j ∈ keysOf A ∨ j ∈ keysOf B) ∧
      k = Value.str (pyStr j)) ∧
    (∀ j, (j ∈ keysOf A ∨ j ∈ keysOf B) →
      (Value.str (pyStr j), choose j A B) ∈ merge A B) :=
  ⟨merge_keys_from_union A B, merge_mem_pairs A B hne hinj⟩

/-- C10 witness: an integer key bound to null is kept in the merged
mapping under its string form, still bound to null. -/
theorem C10_witness :
    (Value.str "7", Value.null) ∈ merge [(Value.int 7, Value.null)] [] ∧
    choose (Value.int 7) [(Value.int 7, Value.null)] [] = Value.null := by
  constructor
  · exact (C10_keys_coerced_nulls_kept [(Value.int 7, Value.null)] []
      (by decide) (by decide)).2 (Value.int 7) (Or.inl (by decide))
  · rfl

/-- C10 counterexample: the keys 1 and the string 1 both coerce to the
string 1, so the merged dict holds a single entry for the two of them;
the entry of the integer key, whose chosen value is null, is overwritten
by the later assignment, so a key with chosen value None is dropped
rather than kept. Whichever iteration order the Python set picks, the two
distinct union keys yield one merged entry, not two. -/
theorem C10_counterexample :
    merge collideC10 [] = [(Value.str "1", Value.int 2)] ∧
    Value.int 1 ∈ keysOf collideC10 ∧
    Value.str "1" ∈ keysOf collideC10 ∧
    Value.int 1 ≠ Value.str "1" ∧
    choose (Value.int 1) collideC10 [] = Value.null ∧
    (Value.str (pyStr (Value.int 1)), Value.null) ∉ merge collideC10 [] ∧
    (keysOf (merge collideC10 [])).length = 1 :=
  ⟨rfl, by decide, by decide, by decide, rfl, by decide, rfl⟩

end Confighelper
